import Mathlib

/-!
Verification development for the WP HTML Translator (Next.js port).

Strings from the TypeScript source are modelled as `List Char`; JavaScript
machine arithmetic is modelled over `Nat` with explicit reductions modulo
`2 ^ 32` and an explicit round-to-nearest-even to 53 significant bits
(`rnd53`) wherever the original code performs a float64 multiplication whose
exact product can exceed `2 ^ 53`.  The non-integer parameters of the code
(the chunker's `margin`, default 0.5) are passed as a fraction
`mnum / mden`; the code only ever uses the value `Math.floor(limit * margin)`,
which for these fractions is `limit * mnum / mden` in `Nat` division.
-/

/-! ## Chunker (src/next/lib/chunk.ts) -/

/-- Model of the JavaScript expression `html.split(/(\n)/)`: split on
newlines, keeping each separator as its own element.  `"".split(/(\n)/)`
is `[""]`, hence the base case. -/
def jsSplitKeep : List Char → List (List Char)
  | [] => [[]]
  | c :: r =>
    if c = '\n' then [] :: ['\n'] :: jsSplitKeep r
    else
      match jsSplitKeep r with
      | [] => [[c]]
      | s :: t => (c :: s) :: t

/-- Shared shape of the two accumulate-and-flush loops in `chunk.ts`:
if the flush condition `p cur x` holds, push `cur` and restart the buffer
from `x`; otherwise append `x` to the buffer. -/
def genStep (p : List Char → List Char → Bool) (st : List (List Char) × List Char)
    (x : List Char) : List (List Char) × List Char :=
  if p st.2 x then (st.1 ++ [st.2], x) else (st.1, st.2 ++ x)

/-- Flush condition of `splitHtmlByChars`: `(cur + line).length > safe`. -/
def chCond (safe : Nat) (cur x : List Char) : Bool :=
  decide (safe < cur.length + x.length)

/-- Flush condition of the packing loop in `splitHtmlSmart`:
`(cur + part).length > safe && cur.length > 0`. -/
def packCond (safe : Nat) (cur x : List Char) : Bool :=
  decide (safe < cur.length + x.length) && decide (cur ≠ [])

/-- Final `if (cur) chunks.push(cur)` of both loops. -/
def chunkFlush (st : List (List Char) × List Char) : List (List Char) :=
  if st.2 = [] then st.1 else st.1 ++ [st.2]

/-- Body of `splitHtmlByChars`, parameterised by the computed safe budget. -/
def splitHtmlByCharsCore (safe : Nat) (html : List Char) : List (List Char) :=
  chunkFlush ((jsSplitKeep html).foldl (genStep (chCond safe)) ([], []))

/-- `splitHtmlByChars(html, limit, margin)` with
`safe = Math.max(1000, Math.floor(limit * margin))` and `margin = mnum / mden`. -/
def splitHtmlByChars (html : List Char) (limit mnum mden : Nat) : List (List Char) :=
  splitHtmlByCharsCore (max 1000 (limit * mnum / mden)) html

/-- Case-insensitive prefix test: pattern `p` (stored lower-case) matches the
beginning of `s` the way the `/i`-flagged regex of `splitHtmlSmart` does on
its ASCII patterns. -/
def ciPref : List Char → List Char → Bool
  | [], _ => true
  | _ :: _, [] => false
  | p :: ps, c :: cs => (Char.toLower c = p) && ciPref ps cs

/-- Closing tag pattern `</t>` for a tag name `t`. -/
def tagPat (t : List Char) : List Char :=
  '<' :: '/' :: (t ++ ['>'])

/-- Tag names of the alternation in the `splitHtmlSmart` splitter regex,
in the regex's order (with `h[1-6]` expanded). -/
def blockTags : List (List Char) :=
  [("p").toList, ("div").toList, ("section").toList, ("article").toList,
   ("header").toList, ("footer").toList, ("li").toList, ("ul").toList,
   ("ol").toList, ("table").toList, ("thead").toList, ("tbody").toList,
   ("tfoot").toList, ("tr").toList, ("td").toList, ("th").toList,
   ("h1").toList, ("h2").toList, ("h3").toList, ("h4").toList,
   ("h5").toList, ("h6").toList]

/-- Length of the block-closing-tag match starting at the head of `s`,
if any (at most one alternative can match at a given position, since each
pattern ends with `>` right after the tag name). -/
def matchLen (s : List Char) : Option Nat :=
  blockTags.findSome? fun t => if ciPref (tagPat t) s then some (t.length + 3) else none

/-- First block-boundary split of `s`: `some (a, b)` when `s = a ++ b` and
`a` ends with the leftmost closing-tag match of the splitter regex. -/
def splitFirst : List Char → Option (List Char × List Char)
  | [] => none
  | c :: r =>
    match matchLen (c :: r) with
    | some n => some ((c :: r).take n, (c :: r).drop n)
    | none => (splitFirst r).map fun q => (c :: q.1, q.2)

/-- Fuel-indexed scanner loop; `splitFirst` consumes at least one character
per step, so fuel `s.length` always suffices (`findPartsGo_of_le`). -/
def findPartsGo : Nat → List Char → List (List Char)
  | 0, _ => []
  | fuel + 1, s =>
    match splitFirst s with
    | none => if s = [] then [] else [s]
    | some q => q.1 :: findPartsGo fuel q.2

/-- All block-boundary parts of `s`, mirroring the `exec` loop plus the final
`if (last < html.length) parts.push(...)` of `splitHtmlSmart`. -/
def findParts (s : List Char) : List (List Char) :=
  findPartsGo s.length s

/-- Fuel-indexed floor logarithm base 2 (`natLog2` below); written with
structural recursion so the kernel can evaluate it on concrete inputs. -/
def log2Go : Nat → Nat → Nat
  | 0, _ => 0
  | f + 1, n => if n < 2 then 0 else log2Go f (n / 2) + 1

/-- Floor logarithm base 2; agrees with `Nat.log2` (`natLog2_eq`). -/
def natLog2 (n : Nat) : Nat := log2Go n n

/-- Round a natural number (an exact product of two float64 integers) to 53
significant bits, nearest-even — the rounding float64 multiplication performs.
Numbers below `2 ^ 53` are exact. -/
def rnd53 (p : Nat) : Nat :=
  if p < 2 ^ 53 then p
  else
    let k := natLog2 p - 52
    let q := p / 2 ^ k
    let r := p % 2 ^ k
    let h := 2 ^ (k - 1)
    (if h < r ∨ (r = h ∧ q % 2 = 1) then q + 1 else q) * 2 ^ k

/-- The normalization test `c.length > safe * 1.2` of `splitHtmlSmart`,
with the float64 constant 1.2 = 5404319552844595 / 2^52 and the float64
rounding of the product made explicit. -/
def jsOverBudget (len safe : Nat) : Bool :=
  decide (len * 2 ^ 52 > rnd53 (safe * 5404319552844595))

/-- Packing loop of `splitHtmlSmart`: pack the boundary-delimited parts into
chunks under the `safe` budget, never flushing an empty buffer. -/
def packParts (safe : Nat) (parts : List (List Char)) : List (List Char) :=
  chunkFlush (parts.foldl (genStep (packCond safe)) ([], []))

/-- `splitHtmlSmart(html, limit, margin)` with `margin = mnum / mden`:
boundary-aware split, pack under `safe = max(2000, floor(limit * margin))`,
then re-split any chunk whose length exceeds `safe * 1.2` with
`splitHtmlByChars`. -/
def splitHtmlSmart (html : List Char) (limit mnum mden : Nat) : List (List Char) :=
  if findParts html = [] then splitHtmlByChars html limit mnum mden
  else
    ((packParts (max 2000 (limit * mnum / mden)) (findParts html)).map fun c =>
      if jsOverBudget c.length (max 2000 (limit * mnum / mden)) then
        splitHtmlByChars c limit mnum mden
      else [c]).flatten

/-- `shouldChunkQA` from `chunk.ts`. -/
def shouldChunkQA (srcHtml tgtHtml : List Char) (thresholdChars : Nat) : Bool :=
  decide (srcHtml.length + tgtHtml.length > thresholdChars)

/-! ### Non-emptiness of emitted chunks -/

/-- Alternating segment/separator structure of `html.split(/(\n)/)`:
a nonempty list of segments separated by singleton `"\n"` entries. -/
inductive SepSeq : List (List Char) → Prop
  | single (s : List Char) : SepSeq [s]
  | cons (s : List Char) (rest : List (List Char)) (hsep : SepSeq rest) :
      SepSeq (s :: ['\n'] :: rest)

/-- Every chunk after the first is non-empty. -/
def tailNE (cs : List (List Char)) : Prop := ∀ c ∈ cs.drop 1, c ≠ []

/-! ## Domain swap (src/next/lib/chunk.ts, deterministicDomainSwap) -/

/-- Prepend a character to the first segment of a split result. -/
def consHead (c : Char) : List (List Char) → List (List Char)
  | [] => [[c]]
  | seg :: rest => (c :: seg) :: rest

/-- Model of JavaScript `s.split(sep)` for a string separator: split at each
leftmost non-overlapping occurrence.  An empty separator splits into single
characters. -/
def jsSplitOn (sep : List Char) : List Char → List (List Char)
  | [] => if sep = [] then [] else [[]]
  | c :: r =>
    if hsep : sep = [] then (c :: r).map fun x => [x]
    else
      if hpre : sep.isPrefixOf (c :: r) then
        [] :: jsSplitOn sep ((c :: r).drop sep.length)
      else consHead c (jsSplitOn sep r)
termination_by s => s.length
decreasing_by
  · have hspos : 0 < sep.length := List.length_pos.mpr hsep
    simp only [List.length_drop]
    simp
    omega
  · simp

/-- Model of `parts.join(sep)`. -/
def joinWith (sep : List Char) : List (List Char) → List Char
  | [] => []
  | [x] => x
  | x :: y :: rest => x ++ sep ++ joinWith sep (y :: rest)

/-- Replacement of every leftmost non-overlapping occurrence of `old` by
`nw`, written the way the spec describes the substitution. -/
def replaceOcc (old nw : List Char) : List Char → List Char
  | [] => []
  | c :: r =>
    if hold : old = [] then c :: r
    else
      if hpre : old.isPrefixOf (c :: r) then
        nw ++ replaceOcc old nw ((c :: r).drop old.length)
      else c :: replaceOcc old nw r
termination_by s => s.length
decreasing_by
  · have hspos : 0 < old.length := List.length_pos.mpr hold
    simp only [List.length_drop]
    simp
    omega
  · simp

/-- `deterministicDomainSwap(html, oldDomain, newDomain)` from `chunk.ts`:
guard on falsy/equal domains, otherwise `html.split(old).join(new)`. -/
def deterministicDomainSwap (html oldDomain newDomain : List Char) : List Char :=
  if oldDomain = [] ∨ newDomain = [] ∨ oldDomain = newDomain then html
  else joinWith newDomain (jsSplitOn oldDomain html)

/-! ## Prompt output normalization (lib/prompt.ts, stripFences) -/

/-- JavaScript whitespace code points recognised by `String.prototype.trim`. -/
def jsWsCodes : List Nat :=
  [9, 10, 11, 12, 13, 32, 160, 5760, 8192, 8193, 8194, 8195, 8196, 8197, 8198,
   8199, 8200, 8201, 8202, 8232, 8233, 8239, 8287, 12288, 65279]

def isJsWs (c : Char) : Bool := jsWsCodes.contains c.toNat

/-- Model of `text.trim()`. -/
def jsTrim (l : List Char) : List Char :=
  ((l.dropWhile isJsWs).reverse.dropWhile isJsWs).reverse

def fenceMark : List Char := ("```").toList

/-- Index of the last `'\n'` in `t` (JavaScript `t.lastIndexOf("\n")`),
or `none` when absent. -/
def lastNlIdx (t : List Char) : Option Nat :=
  (t.reverse.findIdx? fun c => c = '\n').map fun j => t.length - 1 - j

/-- `stripFences` from `lib/prompt.ts`.  Note the faithful translation of the
JavaScript `t.split("\n", 1)[1] ?? ""`: `split` with limit 1 returns only the
first segment, so index 1 is `undefined` and the branch always yields `""`. -/
def stripFences (text : List Char) : List Char :=
  let t0 := jsTrim text
  let t1 := if fenceMark.isPrefixOf t0 then [] else t0
  let t2 :=
    if fenceMark.isSuffixOf t1 then
      match lastNlIdx t1 with
      | some i => t1.take i
      | none => t1
    else t1
  jsTrim t2

/-! ## Translator (src/next/app/api/translate/route.ts, translateChunk) -/

def truncSentinel : List Char := ("TRUNCATED").toList

/-- Post-network behaviour of `translateChunk` as a function of the model
response: throw `ChunkTooLargeError` (modelled as `none`) when the trimmed
response equals the truncation sentinel, otherwise return the fence-stripped
response. -/
def translateChunkRes (response : List Char) : Option (List Char) :=
  if jsTrim response = truncSentinel then none else some (stripFences response)

/-! ## Recursive halving (src/next/app/api/translate/chunk/route.ts) -/

/-- The slicing loop `for (let i = 0; i < text.length; i += maxChars)` of
`translateWithSplit`.  The original loop never terminates for `k = 0`; the
code only calls it with `maxChars = 6000` (route) or 4000 (default). -/
def chunksOf (k : Nat) (l : List Char) : List (List Char) :=
  if hk : k = 0 then []
  else
    match l with
    | [] => []
    | c :: r => (c :: r).take k :: chunksOf k ((c :: r).drop k)
termination_by l.length
decreasing_by
  simp only [List.length_drop]
  simp
  omega

mutual

/-- Fuel-indexed model of `translateWithSplit(prompt, text, maxChars)`, the
oracle giving the model's response for each submitted text (the prompt is
fixed).  `none` means the recursion did not finish within `fuel` steps; the
JavaScript has no fuel, so divergence is modelled as `∀ fuel, twsF … = none`. -/
def twsF (oracle : List Char → List Char) (maxChars : Nat) :
    Nat → List Char → Option (List Char)
  | 0, _ => none
  | fuel + 1, text =>
    if text.length ≤ maxChars then
      if jsTrim (oracle text) = truncSentinel then
        match twsF oracle maxChars fuel (text.take (text.length / 2)),
            twsF oracle maxChars fuel (text.drop (text.length / 2)) with
        | some a, some b => some (a ++ '\n' :: b)
        | _, _ => none
      else some (stripFences (oracle text))
    else
      (twsAll oracle maxChars fuel (chunksOf maxChars text)).map (joinWith ['\n'])
  termination_by fuel _ => (fuel, 0)

/-- Sequential translation of the parts (`for (const p of parts) outs.push(...)`). -/
def twsAll (oracle : List Char → List Char) (maxChars : Nat) :
    Nat → List (List Char) → Option (List (List Char))
  | _, [] => some []
  | fuel, t :: ts =>
    match twsF oracle maxChars fuel t, twsAll oracle maxChars fuel ts with
    | some o, some os => some (o :: os)
    | _, _ => none
  termination_by fuel ts => (fuel, 1 + ts.length)

end

/-- Oracle of a model that always signals truncation. -/
def allTruncOracle : List Char → List Char := fun _ => truncSentinel

/-- Oracle of a model that always answers `"ok"`. -/
def okOracle : List Char → List Char := fun _ => ("ok").toList

/-! ## Bounded-concurrency batching (POST of translate/route.ts) -/

/-- Completion semantics of `Promise.all(slice.map(p => translateChunk(p, prompt)))`:
the calls of a batch complete in an arbitrary order `order` (a list of batch
indices, each occurring when that call completes), and each completion writes
its result into the slot of its originating index.  `f` is the per-chunk
translation (assumed to succeed). -/
def promiseAllExec (f : List Char → List Char) (batch : List (List Char))
    (order : List Nat) : List (List Char) :=
  (order.foldl (fun r j => r.set j (some (f (batch.getD j []))))
      (List.replicate batch.length (none : Option (List Char)))).map
    fun o => o.getD []

/-- The batching loop of the pipeline: process chunks in sequential batches of
3, awaiting each batch (whose calls complete in the order `sched b` for batch
number `b`) before the next begins, appending results in slot order. -/
def runBatches (f : List Char → List Char) (parts : List (List Char))
    (sched : Nat → List Nat) (b : Nat) : List (List Char) :=
  if parts.isEmpty then []
  else promiseAllExec f (parts.take 3) (sched b) ++ runBatches f (parts.drop 3) sched (b + 1)
termination_by parts.length
decreasing_by
  simp only [List.length_drop]
  rename_i hne
  simp [List.isEmpty_iff] at hne
  have : 0 < parts.length := List.length_pos.mpr hne
  omega

/-! ## Cache key (src/next/lib/storage.ts, computeKey) -/

/-- JSON-serialisable values occurring in the request payloads (strings and
booleans). -/
inductive JVal
  | str (s : List Char)
  | jbool (b : Bool)
deriving DecidableEq

def hexDigitChar (n : Nat) : Char :=
  if n < 10 then Char.ofNat (48 + n) else Char.ofNat (87 + n)

def hexVal (c : Char) : Nat :=
  if c.toNat < 58 then c.toNat - 48 else c.toNat - 87

/-- JSON string escaping of one character, as `JSON.stringify` performs it. -/
def escChar (c : Char) : List Char :=
  if c = '"' then ['\\', '"']
  else if c = '\\' then ['\\', '\\']
  else if c.toNat = 8 then ['\\', 'b']
  else if c.toNat = 9 then ['\\', 't']
  else if c.toNat = 10 then ['\\', 'n']
  else if c.toNat = 12 then ['\\', 'f']
  else if c.toNat = 13 then ['\\', 'r']
  else if c.toNat < 32 then
    ['\\', 'u', '0', '0', hexDigitChar (c.toNat / 16), hexDigitChar (c.toNat % 16)]
  else [c]

/-- Decoder for one escaped character; inverse of `escChar`, used to prove
injectivity of the JSON serialisation. -/
def decEsc : List Char → Option (Char × List Char)
  | [] => none
  | c :: r =>
    if c = '\\' then
      match r with
      | [] => none
      | e :: r' =>
        if e = 'u' then
          match r' with
          | '0' :: '0' :: h1 :: h2 :: r'' =>
            some (Char.ofNat (16 * hexVal h1 + hexVal h2), r'')
          | _ => none
        else if e = '"' then some ('"', r')
        else if e = '\\' then some ('\\', r')
        else if e = 'b' then some (Char.ofNat 8, r')
        else if e = 't' then some (Char.ofNat 9, r')
        else if e = 'n' then some (Char.ofNat 10, r')
        else if e = 'f' then some (Char.ofNat 12, r')
        else if e = 'r' then some (Char.ofNat 13, r')
        else none
    else some (c, r)

/-- `JSON.stringify` of a string value. -/
def quoteJs (s : List Char) : List Char :=
  '"' :: (s.map escChar).flatten ++ ['"']

def serializeVal : JVal → List Char
  | .str s => quoteJs s
  | .jbool true => ("true").toList
  | .jbool false => ("false").toList

/-- Property lookup `payload[key]` on the association-list model of a
JavaScript object (keys are unique in an object). -/
def aLookup : List (List Char × JVal) → List Char → JVal
  | [], _ => .str []
  | (k, v) :: rest, key => if k = key then v else aLookup rest key

/-- `JSON.stringify(payload, Object.keys(payload).sort())`: with an array
replacer, properties are serialised in the replacer's order, here the
lexicographically sorted key list. -/
def serializePayload (p : List (List Char × JVal)) : List Char :=
  Char.ofNat 123 ::
    joinWith [',']
      ((List.insertionSort (· ≤ ·) (p.map Prod.fst)).map fun k =>
        quoteJs k ++ ':' :: serializeVal (aLookup p k)) ++ [Char.ofNat 125]

/-- One step of the FNV loop: `hash ^= code; hash = (hash >>> 0) * 0x01000193`.
The multiplication is a float64 multiplication, hence the `rnd53`. -/
def fnvStep (h : Nat) (code : Nat) : Nat :=
  rnd53 (((h % 2 ^ 32) ^^^ code) * 16777619)

/-- The hash loop of `computeKey` over the serialised payload, starting from
`0x811c9dc5`, with the final `>>> 0`. -/
def fnvHash (s : List Char) : Nat :=
  (s.foldl (fun h c => fnvStep h c.toNat) 0x811c9dc5) % 2 ^ 32

/-- `('0000000' + hash.toString(16)).slice(-8)`. -/
def toHex8 (n : Nat) : List Char :=
  List.replicate (8 - (Nat.toDigits 16 n).length) '0' ++ Nat.toDigits 16 n

/-- `computeKey(payload)` from `storage.ts`: FNV-1a-style 32-bit hash of the
canonical (key-sorted) JSON serialisation, rendered as 8 hex digits. -/
def computeKey (p : List (List Char × JVal)) : List Char :=
  toHex8 (fnvHash (serializePayload p))

theorem splitFirst_append {s a b : List Char} (h : splitFirst s = some (a, b)) :
    a ++ b = s := by
  induction s generalizing a b with
  | nil => simp [splitFirst] at h
  | cons c r ih =>
    rw [splitFirst] at h
    cases hm : matchLen (c :: r) with
    | some n =>
      rw [hm] at h
      simp only [Option.some.injEq, Prod.mk.injEq] at h
      rw [← h.1, ← h.2, List.take_append_drop]
    | none =>
      rw [hm] at h
      cases hs : splitFirst r with
      | none => rw [hs] at h; simp at h
      | some q =>
        rw [hs] at h
        simp only [Option.map_some', Option.some.injEq] at h
        cases q with
        | mk a' b' =>
          simp only [Prod.mk.injEq] at h
          rw [← h.1, ← h.2]
          simpa using ih (a := a') (b := b') (by simpa using hs)

theorem matchLen_ge {s : List Char} {n : Nat} (h : matchLen s = some n) : 3 ≤ n := by
  obtain ⟨t, -, ht⟩ := List.exists_of_findSome?_eq_some h
  by_cases hp : ciPref (tagPat t) s = true
  · simp [hp] at ht; omega
  · simp [hp] at ht

theorem splitFirst_fst_ne {s a b : List Char} (h : splitFirst s = some (a, b)) :
    a ≠ [] := by
  cases s with
  | nil => simp [splitFirst] at h
  | cons c r =>
    rw [splitFirst] at h
    cases hm : matchLen (c :: r) with
    | some n =>
      rw [hm] at h
      simp only [Option.some.injEq, Prod.mk.injEq] at h
      have := matchLen_ge hm
      rw [← h.1]
      cases n with
      | zero => omega
      | succ m => simp
    | none =>
      rw [hm] at h
      cases hs : splitFirst r with
      | none => rw [hs] at h; simp at h
      | some q =>
        obtain ⟨a', b'⟩ := q
        rw [hs] at h
        simp only [Option.map_some', Option.some.injEq, Prod.mk.injEq] at h
        rw [← h.1]
        simp

theorem splitFirst_snd_lt {s a b : List Char} (h : splitFirst s = some (a, b)) :
    b.length < s.length := by
  have happ := splitFirst_append h
  have hne := splitFirst_fst_ne h
  have : a.length + b.length = s.length := by rw [← happ]; simp
  have : 0 < a.length := List.length_pos.mpr hne
  omega

theorem findPartsGo_of_le : ∀ (f : Nat) (s : List Char), s.length ≤ f →
    findPartsGo f s = findPartsGo s.length s := by
  intro f
  induction f using Nat.strong_induction_on with
  | _ f ih =>
    intro s hs
    match f with
    | 0 =>
      have h0 : s = [] := List.eq_nil_of_length_eq_zero (by omega)
      subst h0
      rfl
    | g + 1 =>
      cases hsf : splitFirst s with
      | none =>
        cases s with
        | nil => rfl
        | cons c r => simp only [List.length_cons, findPartsGo, hsf]
      | some q =>
        have hne : s ≠ [] := by
          intro h0
          subst h0
          simp [splitFirst] at hsf
        obtain ⟨c, r, rfl⟩ : ∃ c r, s = c :: r := by
          cases s with
          | nil => exact absurd rfl hne
          | cons c r => exact ⟨c, r, rfl⟩
        simp only [List.length_cons, findPartsGo, hsf]
        have hq2 := splitFirst_snd_lt hsf
        simp only [List.length_cons] at hq2 hs
        rw [ih g (by omega) q.2 (by omega), ih r.length (by omega) q.2 (by omega)]

/-- The natural recursion of the scanner, recovered from the fuel version. -/
theorem findParts_eq (s : List Char) : findParts s =
    match splitFirst s with
    | none => if s = [] then [] else [s]
    | some q => q.1 :: findParts q.2 := by
  unfold findParts
  cases hsf : splitFirst s with
  | none =>
    cases s with
    | nil => rfl
    | cons c r => simp only [List.length_cons, findPartsGo, hsf]
  | some q =>
    have hne : s ≠ [] := by
      intro h0
      subst h0
      simp [splitFirst] at hsf
    obtain ⟨c, r, rfl⟩ : ∃ c r, s = c :: r := by
      cases s with
      | nil => exact absurd rfl hne
      | cons c r => exact ⟨c, r, rfl⟩
    simp only [List.length_cons, findPartsGo, hsf]
    have hq2 := splitFirst_snd_lt hsf
    simp only [List.length_cons] at hq2
    rw [findPartsGo_of_le r.length q.2 (by omega)]

theorem log2Go_eq : ∀ (f n : Nat), n ≤ f → log2Go f n = Nat.log2 n := by
  intro f
  induction f using Nat.strong_induction_on with
  | _ f ih =>
    intro n hn
    match f with
    | 0 =>
      have h0 : n = 0 := by omega
      subst h0
      rw [Nat.log2]
      rfl
    | g + 1 =>
      rw [log2Go, Nat.log2]
      by_cases h2 : n < 2
      · rw [if_pos h2, if_neg (by omega : ¬n ≥ 2)]
      · rw [if_neg h2, if_pos (by omega : n ≥ 2)]
        have hd : n / 2 ≤ g := by omega
        rw [ih g (by omega) (n / 2) hd]

theorem natLog2_eq (n : Nat) : natLog2 n = Nat.log2 n :=
  log2Go_eq n n (le_refl n)

/-! ### Round-trip lemmas -/

theorem jsSplitKeep_ne_nil (l : List Char) : jsSplitKeep l ≠ [] := by
  cases l with
  | nil => simp [jsSplitKeep]
  | cons c r =>
    rw [jsSplitKeep]
    split
    · simp
    · cases h : jsSplitKeep r <;> simp

theorem jsSplitKeep_flatten (l : List Char) : (jsSplitKeep l).flatten = l := by
  induction l with
  | nil => simp [jsSplitKeep]
  | cons c r ih =>
    rw [jsSplitKeep]
    split
    · rename_i hc
      subst hc
      simp [ih]
    · cases h : jsSplitKeep r with
      | nil => exact absurd h (jsSplitKeep_ne_nil r)
      | cons s t =>
        rw [h] at ih
        simp at ih ⊢
        exact ih

theorem genStep_foldl_flatten (p : List Char → List Char → Bool)
    (lines : List (List Char)) :
    ∀ st : List (List Char) × List Char,
      ((lines.foldl (genStep p) st).1.flatten ++ (lines.foldl (genStep p) st).2 =
        st.1.flatten ++ st.2 ++ lines.flatten) := by
  induction lines with
  | nil => intro st; simp
  | cons x xs ih =>
    intro st
    rw [List.foldl_cons]
    rw [ih (genStep p st x)]
    unfold genStep
    split <;> simp

theorem chunkFlush_flatten (st : List (List Char) × List Char) :
    (chunkFlush st).flatten = st.1.flatten ++ st.2 := by
  unfold chunkFlush
  split <;> simp_all

theorem splitHtmlByCharsCore_flatten (safe : Nat) (html : List Char) :
    (splitHtmlByCharsCore safe html).flatten = html := by
  unfold splitHtmlByCharsCore
  rw [chunkFlush_flatten, genStep_foldl_flatten]
  simp [jsSplitKeep_flatten]

theorem splitHtmlByChars_flatten (html : List Char) (limit mnum mden : Nat) :
    (splitHtmlByChars html limit mnum mden).flatten = html :=
  splitHtmlByCharsCore_flatten _ _

theorem findParts_flatten (s : List Char) : (findParts s).flatten = s := by
  rw [findParts_eq]
  split
  · split <;> simp_all
  · rename_i q hq
    obtain ⟨a, b⟩ := q
    have hlt := splitFirst_snd_lt hq
    have := findParts_flatten b
    simp only [List.flatten_cons, this]
    exact splitFirst_append hq
termination_by s.length

theorem packParts_flatten (safe : Nat) (parts : List (List Char)) :
    (packParts safe parts).flatten = parts.flatten := by
  unfold packParts
  rw [chunkFlush_flatten, genStep_foldl_flatten]
  simp

theorem normalize_flatten (limit mnum mden safe : Nat) (cs : List (List Char)) :
    ((cs.map fun c =>
      if jsOverBudget c.length safe then splitHtmlByChars c limit mnum mden
      else [c]).flatten).flatten = cs.flatten := by
  induction cs with
  | nil => simp
  | cons c rest ih =>
    simp only [List.map_cons, List.flatten_cons, List.flatten_append]
    rw [ih]
    congr 1
    split
    · exact splitHtmlByChars_flatten c limit mnum mden
    · simp

theorem splitHtmlSmart_flatten (html : List Char) (limit mnum mden : Nat) :
    (splitHtmlSmart html limit mnum mden).flatten = html := by
  unfold splitHtmlSmart
  split
  · exact splitHtmlByChars_flatten html limit mnum mden
  · rw [normalize_flatten, packParts_flatten, findParts_flatten]

theorem jsSplitKeep_sepSeq (l : List Char) : SepSeq (jsSplitKeep l) := by
  induction l with
  | nil => exact SepSeq.single []
  | cons c r ih =>
    rw [jsSplitKeep]
    split
    · exact SepSeq.cons [] _ ih
    · cases h : jsSplitKeep r with
      | nil => exact absurd h (jsSplitKeep_ne_nil r)
      | cons s t =>
        rw [h] at ih
        cases ih with
        | single s => exact SepSeq.single _
        | cons s rest hsep => exact SepSeq.cons _ _ hsep

theorem tailNE_nil : tailNE [] := by intro c hc; simp at hc

theorem tailNE_push {cs : List (List Char)} {cur : List Char} (h : tailNE cs)
    (hcur : cs = [] ∨ cur ≠ []) : tailNE (cs ++ [cur]) := by
  cases cs with
  | nil => intro c hc; simp at hc
  | cons a t =>
    have hne : cur ≠ [] := by
      cases hcur with
      | inl h0 => exact absurd h0 (by simp)
      | inr hne => exact hne
    intro c hc
    have hc' : c ∈ t ++ [cur] := by simpa using hc
    rcases List.mem_append.mp hc' with hm | hm
    · exact h c (by simpa using hm)
    · simp at hm; subst hm; exact hne

theorem chunkFlush_tailNE {st : List (List Char) × List Char} (h : tailNE st.1) :
    tailNE (chunkFlush st) := by
  unfold chunkFlush
  split
  · exact h
  · exact tailNE_push h (Or.inr (by assumption))

theorem genStep_pos {p : List Char → List Char → Bool}
    {st : List (List Char) × List Char} {x : List Char} (h : p st.2 x = true) :
    genStep p st x = (st.1 ++ [st.2], x) := by
  unfold genStep; rw [if_pos h]

theorem genStep_neg {p : List Char → List Char → Bool}
    {st : List (List Char) × List Char} {x : List Char} (h : ¬p st.2 x = true) :
    genStep p st x = (st.1, st.2 ++ x) := by
  unfold genStep; rw [if_neg h]

theorem chCond_iff (safe : Nat) (cur x : List Char) :
    chCond safe cur x = true ↔ safe < cur.length + x.length := by
  simp [chCond]

theorem chars_fold_tailNE (safe : Nat) (hsafe : 1 ≤ safe) :
    ∀ lines, SepSeq lines → ∀ cs cur, tailNE cs → (cs = [] ∨ cur ≠ []) →
      tailNE (lines.foldl (genStep (chCond safe)) (cs, cur)).1 := by
  intro lines hsep
  induction hsep with
  | single s =>
    intro cs cur hcs hinv
    simp only [List.foldl_cons, List.foldl_nil]
    by_cases hc : safe < cur.length + s.length
    · rw [genStep_pos ((chCond_iff safe cur s).mpr hc)]
      exact tailNE_push hcs hinv
    · rw [genStep_neg (by rw [chCond_iff]; exact hc)]
      exact hcs
  | cons s rest hrest ih =>
    intro cs cur hcs hinv
    simp only [List.foldl_cons]
    by_cases hc1 : safe < cur.length + s.length
    · rw [@genStep_pos (chCond safe) (cs, cur) s ((chCond_iff safe cur s).mpr hc1)]
      dsimp only
      by_cases hc2 : safe < s.length + 1
      · rw [@genStep_pos (chCond safe) (cs ++ [cur], s) ['\n']
            (by rw [chCond_iff]; simpa using hc2)]
        dsimp only
        have hs : s ≠ [] := by
          intro h0; subst h0; simp at hc2; omega
        exact ih _ _ (tailNE_push (tailNE_push hcs hinv) (Or.inr hs)) (Or.inr (by simp))
      · rw [@genStep_neg (chCond safe) (cs ++ [cur], s) ['\n']
            (by rw [chCond_iff]; simpa using hc2)]
        dsimp only
        exact ih _ _ (tailNE_push hcs hinv) (Or.inr (by simp))
    · rw [@genStep_neg (chCond safe) (cs, cur) s (by rw [chCond_iff]; exact hc1)]
      dsimp only
      by_cases hc2 : safe < (cur ++ s).length + 1
      · rw [@genStep_pos (chCond safe) (cs, cur ++ s) ['\n']
            (by rw [chCond_iff]; simpa using hc2)]
        dsimp only
        have hne : cur ++ s ≠ [] := by
          intro h0
          rw [h0] at hc2
          simp at hc2
          omega
        exact ih _ _ (tailNE_push hcs (Or.inr hne)) (Or.inr (by simp))
      · rw [@genStep_neg (chCond safe) (cs, cur ++ s) ['\n']
            (by rw [chCond_iff]; simpa using hc2)]
        dsimp only
        exact ih _ _ hcs (Or.inr (by simp))

theorem splitHtmlByCharsCore_tailNE (safe : Nat) (hsafe : 1 ≤ safe) (html : List Char) :
    tailNE (splitHtmlByCharsCore safe html) :=
  chunkFlush_tailNE
    (chars_fold_tailNE safe hsafe _ (jsSplitKeep_sepSeq html) [] [] tailNE_nil (Or.inl rfl))

theorem pack_fold_allNE (safe : Nat) :
    ∀ (parts : List (List Char)) (cs : List (List Char)) (cur : List Char),
      (∀ c ∈ cs, c ≠ []) →
      ∀ c ∈ (parts.foldl (genStep (packCond safe)) (cs, cur)).1, c ≠ [] := by
  intro parts
  induction parts with
  | nil => intro cs cur hcs; simpa using hcs
  | cons x xs ih =>
    intro cs cur hcs
    simp only [List.foldl_cons]
    by_cases hp : packCond safe cur x = true
    · simp only [genStep, hp, if_pos]
      refine ih _ _ ?_
      intro c hc
      rcases List.mem_append.mp hc with hm | hm
      · exact hcs c hm
      · simp at hm
        subst hm
        simp only [packCond, Bool.and_eq_true, decide_eq_true_eq] at hp
        exact hp.2
    · simp only [genStep, hp, Bool.false_eq_true, not_false_eq_true, if_neg]
      exact ih _ _ hcs

theorem packParts_allNE (safe : Nat) (parts : List (List Char)) :
    ∀ c ∈ packParts safe parts, c ≠ [] := by
  intro c hc
  unfold packParts chunkFlush at hc
  split at hc
  · exact pack_fold_allNE safe parts [] [] (by simp) c hc
  · rcases List.mem_append.mp hc with hm | hm
    · exact pack_fold_allNE safe parts [] [] (by simp) c hm
    · simp at hm; subst hm; assumption

/-- Helper for the concrete counterexample: a newline-free string is a single
line for `jsSplitKeep`. -/
theorem jsSplitKeep_replicate {c : Char} (hc : ¬c = '\n') :
    ∀ n, jsSplitKeep (List.replicate n c) = [List.replicate n c] := by
  intro n
  induction n with
  | zero => simp [jsSplitKeep]
  | succ m ih =>
    rw [List.replicate_succ, jsSplitKeep, if_neg hc, ih]

/-! ### Chunk length bounds -/

theorem ciPref_le_length {p s : List Char} (h : ciPref p s = true) :
    p.length ≤ s.length := by
  induction p generalizing s with
  | nil => simp
  | cons a ps ih =>
    cases s with
    | nil => simp [ciPref] at h
    | cons c cs =>
      rw [ciPref, Bool.and_eq_true] at h
      simpa using ih h.2

theorem ciPref_of_take {p s : List Char} {n : Nat} (h : ciPref p (s.take n) = true) :
    ciPref p s = true := by
  induction p generalizing s n with
  | nil => simp [ciPref]
  | cons a ps ih =>
    cases s with
    | nil => simpa using h
    | cons c cs =>
      cases n with
      | zero => simp [ciPref] at h
      | succ m =>
        rw [List.take_succ_cons, ciPref, Bool.and_eq_true] at h
        rw [ciPref, Bool.and_eq_true]
        exact ⟨h.1, ih h.2⟩

theorem ciPref_take {p s : List Char} {n : Nat} (h : ciPref p s = true)
    (hn : p.length ≤ n) : ciPref p (s.take n) = true := by
  induction p generalizing s n with
  | nil => simp [ciPref]
  | cons a ps ih =>
    cases s with
    | nil => simp [ciPref] at h
    | cons c cs =>
      cases n with
      | zero => simp at hn
      | succ m =>
        rw [ciPref, Bool.and_eq_true] at h
        rw [List.take_succ_cons, ciPref, Bool.and_eq_true]
        exact ⟨h.1, ih h.2 (by simpa using hn)⟩

theorem tagPat_length (t : List Char) : (tagPat t).length = t.length + 3 := by
  simp [tagPat]

theorem matchLen_le_length {s : List Char} {n : Nat} (h : matchLen s = some n) :
    n ≤ s.length := by
  obtain ⟨t, -, ht⟩ := List.exists_of_findSome?_eq_some h
  by_cases hp : ciPref (tagPat t) s = true
  · rw [if_pos hp] at ht
    have := ciPref_le_length hp
    rw [tagPat_length] at this
    simp at ht
    omega
  · rw [if_neg hp] at ht
    simp at ht

theorem findTag_take {s : List Char} {n : Nat} :
    ∀ ts : List (List Char),
      (ts.findSome? fun t => if ciPref (tagPat t) s then some (t.length + 3) else none)
          = some n →
      (ts.findSome? fun t =>
          if ciPref (tagPat t) (s.take n) then some (t.length + 3) else none) = some n := by
  intro ts
  induction ts with
  | nil => intro h; simp at h
  | cons t ts ih =>
    intro h
    rw [List.findSome?_cons] at h ⊢
    by_cases hp : ciPref (tagPat t) s = true
    · rw [if_pos hp] at h
      simp only at h
      have hn : t.length + 3 = n := by simpa using h
      have hle : (tagPat t).length ≤ n := by rw [tagPat_length]; omega
      rw [if_pos (ciPref_take hp hle)]
      simpa using h
    · rw [if_neg hp] at h
      have hnp : ¬ciPref (tagPat t) (s.take n) = true :=
        fun hcon => hp (ciPref_of_take hcon)
      rw [if_neg hnp]
      simp only at h ⊢
      exact ih h

theorem matchLen_take {s : List Char} {n : Nat} (h : matchLen s = some n) :
    matchLen (s.take n) = some n := by
  unfold matchLen at h ⊢
  exact findTag_take _ h

theorem matchLen_take_none {s : List Char} {m : Nat} (h : matchLen s = none) :
    matchLen (s.take m) = none := by
  unfold matchLen at h ⊢
  rw [List.findSome?_eq_none_iff] at h ⊢
  intro t ht
  have hh := h t ht
  by_cases hp : ciPref (tagPat t) (s.take m) = true
  · rw [if_pos (ciPref_of_take hp)] at hh
    simp at hh
  · rw [if_neg hp]

theorem splitFirst_self {s a b : List Char} (h : splitFirst s = some (a, b)) :
    splitFirst a = some (a, []) := by
  induction s generalizing a b with
  | nil => simp [splitFirst] at h
  | cons c r ih =>
    rw [splitFirst] at h
    cases hm : matchLen (c :: r) with
    | some n =>
      rw [hm] at h
      simp only [Option.some.injEq, Prod.mk.injEq] at h
      obtain ⟨h1, -⟩ := h
      have hge := matchLen_ge hm
      have hle := matchLen_le_length hm
      have hm' : matchLen a = some n := by rw [← h1]; exact matchLen_take hm
      have hlen : a.length = n := by
        rw [← h1, List.length_take]
        omega
      cases n with
      | zero => omega
      | succ m =>
        have ha : a = c :: r.take m := by rw [← h1, List.take_succ_cons]
        rw [ha, splitFirst]
        rw [ha] at hm' hlen
        rw [hm']
        simp only [Option.some.injEq, Prod.mk.injEq]
        constructor
        · exact List.take_of_length_le (by omega)
        · exact List.drop_eq_nil_of_le (by omega)
    | none =>
      rw [hm] at h
      cases hs : splitFirst r with
      | none => rw [hs] at h; simp at h
      | some q =>
        obtain ⟨a', b'⟩ := q
        rw [hs] at h
        simp only [Option.map_some', Option.some.injEq, Prod.mk.injEq] at h
        obtain ⟨h1, -⟩ := h
        subst h1
        have hap : a' ++ b' = r := splitFirst_append hs
        have hm2 : matchLen (c :: a') = none := by
          have htake : c :: a' = (c :: r).take (a'.length + 1) := by
            rw [List.take_succ_cons]
            congr 1
            rw [← hap]
            exact (List.take_left a' b').symm
          rw [htake]
          exact matchLen_take_none hm
        have hih := ih hs
        rw [splitFirst, hm2, hih]
        rfl

theorem findParts_nil : findParts [] = [] := by
  rw [findParts_eq]
  simp [splitFirst]

theorem findParts_of_self {p : List Char} (hself : splitFirst p = some (p, [])) :
    findParts p = [p] := by
  rw [findParts_eq]
  split
  · rename_i hnone
    rw [hself] at hnone
    cases hnone
  · rename_i q hq'
    rw [hself] at hq'
    have hq1 : q = (p, []) := by injection hq' with h; exact h.symm
    subst hq1
    simp [findParts_nil]

theorem findParts_self {s : List Char} : ∀ p ∈ findParts s, findParts p = [p] := by
  intro p hp
  rw [findParts_eq] at hp
  split at hp
  · split at hp
    · simp at hp
    · rename_i hsf hne
      simp at hp
      subst hp
      rw [findParts_eq, hsf, if_neg hne]
  · rename_i q hq
    obtain ⟨a, b⟩ := q
    rcases List.mem_cons.mp hp with h1 | h1
    · subst h1
      exact findParts_of_self (splitFirst_self hq)
    · have hlt := splitFirst_snd_lt hq
      exact findParts_self p h1
termination_by s.length

theorem pack_fold_bound (safe : Nat) (R : List Char → Prop) :
    ∀ (parts : List (List Char)), (∀ p ∈ parts, R p) →
      ∀ cs cur, (∀ c ∈ cs, c.length ≤ safe ∨ R c) →
        (cur = [] ∨ cur.length ≤ safe ∨ R cur) →
        (∀ c ∈ (parts.foldl (genStep (packCond safe)) (cs, cur)).1,
            c.length ≤ safe ∨ R c) ∧
          ((parts.foldl (genStep (packCond safe)) (cs, cur)).2 = [] ∨
            (parts.foldl (genStep (packCond safe)) (cs, cur)).2.length ≤ safe ∨
            R (parts.foldl (genStep (packCond safe)) (cs, cur)).2) := by
  intro parts
  induction parts with
  | nil =>
    intro hR cs cur hcs hcur
    exact ⟨hcs, hcur⟩
  | cons x xs ih =>
    intro hR cs cur hcs hcur
    have hRx : R x := hR x (by simp)
    have hRxs : ∀ p ∈ xs, R p := fun p hp => hR p (by simp [hp])
    simp only [List.foldl_cons]
    by_cases hp : packCond safe cur x = true
    · rw [@genStep_pos (packCond safe) (cs, cur) x hp]
      refine ih hRxs _ _ ?_ (Or.inr (Or.inr hRx))
      intro c hc
      rcases List.mem_append.mp hc with hm | hm
      · exact hcs c hm
      · simp at hm
        subst hm
        simp only [packCond, Bool.and_eq_true, decide_eq_true_eq] at hp
        rcases hcur with h0 | hok
        · exact absurd h0 hp.2
        · exact hok
    · rw [@genStep_neg (packCond safe) (cs, cur) x hp]
      refine ih hRxs _ _ hcs ?_
      by_cases hne : cur = []
      · subst hne
        exact Or.inr (Or.inr (by simpa using hRx))
      · right
        left
        simp only [packCond, Bool.and_eq_true, decide_eq_true_eq] at hp
        rw [List.length_append]
        by_contra hcon
        push_neg at hcon
        exact hp ⟨hcon, hne⟩

theorem packParts_bound (safe : Nat) (R : List Char → Prop)
    (parts : List (List Char)) (hparts : ∀ p ∈ parts, R p) :
    ∀ c ∈ packParts safe parts, c.length ≤ safe ∨ R c := by
  intro c hc
  obtain ⟨h1, h2⟩ :=
    pack_fold_bound safe R parts hparts [] [] (by simp) (Or.inl rfl)
  unfold packParts chunkFlush at hc
  split at hc
  · exact h1 c hc
  · rcases List.mem_append.mp hc with hm | hm
    · exact h1 c hm
    · simp at hm
      subst hm
      rcases h2 with h0 | hok
      · exact absurd h0 (by assumption)
      · exact hok

/-- Structure of `jsSplitKeep l`: a newline-free head segment followed by
entries that are newline-free or equal to the separator `"\n"`. -/
theorem jsSplitKeep_head (l : List Char) :
    ∃ s t, jsSplitKeep l = s :: t ∧ '\n' ∉ s ∧
      ∀ line ∈ t, '\n' ∉ line ∨ line = ['\n'] := by
  induction l with
  | nil =>
    refine ⟨[], [], by simp [jsSplitKeep], by simp, ?_⟩
    intro line hl
    simp at hl
  | cons c r ih =>
    obtain ⟨s, t, heq, hs, ht⟩ := ih
    by_cases hc : c = '\n'
    · refine ⟨[], ['\n'] :: jsSplitKeep r, by rw [jsSplitKeep, if_pos hc], by simp, ?_⟩
      intro line hl
      rcases List.mem_cons.mp hl with h1 | h1
      · subst h1; simp
      · rw [heq] at h1
        rcases List.mem_cons.mp h1 with h2 | h2
        · subst h2; exact Or.inl hs
        · exact ht line h2
    · refine ⟨c :: s, t, by rw [jsSplitKeep, if_neg hc, heq], ?_, ht⟩
      intro hmem
      rcases List.mem_cons.mp hmem with h2 | h2
      · exact hc h2.symm
      · exact hs h2

/-- Every element of `jsSplitKeep l` is newline-free or is the separator. -/
theorem jsSplitKeep_lineOk (l : List Char) :
    ∀ line ∈ jsSplitKeep l, '\n' ∉ line ∨ line = ['\n'] := by
  obtain ⟨s, t, heq, hs, ht⟩ := jsSplitKeep_head l
  intro line hl
  rw [heq] at hl
  rcases List.mem_cons.mp hl with h1 | h1
  · subst h1; exact Or.inl hs
  · exact ht line h1

theorem chars_fold_bound (safe : Nat) (hsafe : 1 ≤ safe) :
    ∀ (lines : List (List Char)), (∀ line ∈ lines, '\n' ∉ line ∨ line = ['\n']) →
      ∀ cs cur, (∀ c ∈ cs, c.length ≤ safe ∨ '\n' ∉ c) →
        (cur.length ≤ safe ∨ '\n' ∉ cur) →
        (∀ c ∈ (lines.foldl (genStep (chCond safe)) (cs, cur)).1,
            c.length ≤ safe ∨ '\n' ∉ c) ∧
          ((lines.foldl (genStep (chCond safe)) (cs, cur)).2.length ≤ safe ∨
            '\n' ∉ (lines.foldl (genStep (chCond safe)) (cs, cur)).2) := by
  intro lines
  induction lines with
  | nil =>
    intro hok cs cur hcs hcur
    exact ⟨hcs, hcur⟩
  | cons x xs ih =>
    intro hok cs cur hcs hcur
    have hx := hok x (by simp)
    have hxs : ∀ line ∈ xs, '\n' ∉ line ∨ line = ['\n'] :=
      fun line hl => hok line (by simp [hl])
    simp only [List.foldl_cons]
    by_cases hp : chCond safe cur x = true
    · rw [@genStep_pos (chCond safe) (cs, cur) x hp]
      refine ih hxs _ _ ?_ ?_
      · intro c hc
        rcases List.mem_append.mp hc with hm | hm
        · exact hcs c hm
        · simp at hm; subst hm; exact hcur
      · rcases hx with hnl | hsep
        · exact Or.inr hnl
        · subst hsep; left; simpa using hsafe
    · rw [@genStep_neg (chCond safe) (cs, cur) x hp]
      dsimp only
      refine ih hxs _ _ hcs ?_
      left
      rw [chCond_iff] at hp
      rw [List.length_append]
      omega

theorem splitHtmlByCharsCore_bound (safe : Nat) (hsafe : 1 ≤ safe) (html : List Char) :
    ∀ c ∈ splitHtmlByCharsCore safe html, c.length ≤ safe ∨ '\n' ∉ c := by
  intro c hc
  obtain ⟨h1, h2⟩ :=
    chars_fold_bound safe hsafe (jsSplitKeep html) (jsSplitKeep_lineOk html) [] []
      (by simp) (by simp)
  unfold splitHtmlByCharsCore chunkFlush at hc
  split at hc
  · exact h1 c hc
  · rcases List.mem_append.mp hc with hm | hm
    · exact h1 c hm
    · simp at hm
      subst hm
      exact h2

theorem splitHtmlByChars_bound (html : List Char) (limit mnum mden : Nat) :
    ∀ c ∈ splitHtmlByChars html limit mnum mden,
      c.length ≤ max 1000 (limit * mnum / mden) ∨ '\n' ∉ c :=
  splitHtmlByCharsCore_bound _ (by omega) html

/-- Every chunk of `splitHtmlSmart` is within the safe budget, or is a single
boundary-delimited element, or is a single newline-free line. -/
theorem splitHtmlSmart_bound (html : List Char) (limit mnum mden : Nat) :
    ∀ c ∈ splitHtmlSmart html limit mnum mden,
      c.length ≤ max 2000 (limit * mnum / mden) ∨ findParts c = [c] ∨ '\n' ∉ c := by
  intro c hc
  have hmono : max 1000 (limit * mnum / mden) ≤ max 2000 (limit * mnum / mden) :=
    max_le_max (by omega) (le_refl _)
  unfold splitHtmlSmart at hc
  split at hc
  · rcases splitHtmlByChars_bound html limit mnum mden c hc with h1 | h1
    · exact Or.inl (le_trans h1 hmono)
    · exact Or.inr (Or.inr h1)
  · rw [List.mem_flatten] at hc
    obtain ⟨l, hl, hcl⟩ := hc
    rw [List.mem_map] at hl
    obtain ⟨c0, hc0, hfc0⟩ := hl
    subst hfc0
    split at hcl
    · rcases splitHtmlByChars_bound c0 limit mnum mden c hcl with h1 | h1
      · exact Or.inl (le_trans h1 hmono)
      · exact Or.inr (Or.inr h1)
    · simp at hcl
      subst hcl
      rcases packParts_bound _ (fun p => p ∈ findParts html) _ (fun p hp => hp) c hc0
        with h1 | h1
      · exact Or.inl h1
      · exact Or.inr (Or.inl (findParts_self c h1))

theorem jsSplitOn_nil {sep : List Char} (hsep : sep ≠ []) : jsSplitOn sep [] = [[]] := by
  rw [jsSplitOn, if_neg hsep]

theorem jsSplitOn_cons_pre {sep : List Char} {c : Char} {r : List Char}
    (hsep : sep ≠ []) (hpre : sep.isPrefixOf (c :: r) = true) :
    jsSplitOn sep (c :: r) = [] :: jsSplitOn sep ((c :: r).drop sep.length) := by
  rw [jsSplitOn, dif_neg hsep, dif_pos hpre]

theorem jsSplitOn_cons_npre {sep : List Char} {c : Char} {r : List Char}
    (hsep : sep ≠ []) (hpre : ¬sep.isPrefixOf (c :: r) = true) :
    jsSplitOn sep (c :: r) = consHead c (jsSplitOn sep r) := by
  rw [jsSplitOn, dif_neg hsep, dif_neg hpre]

theorem jsSplitOn_ne_nil {sep : List Char} (hsep : sep ≠ []) (s : List Char) :
    jsSplitOn sep s ≠ [] := by
  cases s with
  | nil => rw [jsSplitOn_nil hsep]; simp
  | cons c r =>
    by_cases hpre : sep.isPrefixOf (c :: r) = true
    · rw [jsSplitOn_cons_pre hsep hpre]; simp
    · rw [jsSplitOn_cons_npre hsep hpre]
      unfold consHead
      split <;> simp

theorem replaceOcc_nil (old nw : List Char) : replaceOcc old nw [] = [] := by
  rw [replaceOcc]

theorem replaceOcc_cons_pre {old : List Char} {c : Char} {r : List Char}
    (hold : old ≠ []) (hpre : old.isPrefixOf (c :: r) = true) (nw : List Char) :
    replaceOcc old nw (c :: r) = nw ++ replaceOcc old nw ((c :: r).drop old.length) := by
  rw [replaceOcc, dif_neg hold, dif_pos hpre]

theorem replaceOcc_cons_npre {old : List Char} {c : Char} {r : List Char}
    (hold : old ≠ []) (hpre : ¬old.isPrefixOf (c :: r) = true) (nw : List Char) :
    replaceOcc old nw (c :: r) = c :: replaceOcc old nw r := by
  rw [replaceOcc, dif_neg hold, dif_neg hpre]

theorem joinWith_cons (sep x : List Char) {l : List (List Char)} (hl : l ≠ []) :
    joinWith sep (x :: l) = x ++ sep ++ joinWith sep l := by
  cases l with
  | nil => exact absurd rfl hl
  | cons y rest => rw [joinWith]

theorem joinWith_consHead (sep : List Char) (c : Char) {l : List (List Char)}
    (hl : l ≠ []) : joinWith sep (consHead c l) = c :: joinWith sep l := by
  cases l with
  | nil => exact absurd rfl hl
  | cons seg rest =>
    unfold consHead
    cases rest with
    | nil => simp only [joinWith]
    | cons y t =>
      simp only [joinWith]
      simp

theorem swap_join_eq_replace {old : List Char} (hold : old ≠ []) (nw : List Char) :
    ∀ s, joinWith nw (jsSplitOn old s) = replaceOcc old nw s := by
  have key : ∀ n, ∀ s : List Char, s.length ≤ n →
      joinWith nw (jsSplitOn old s) = replaceOcc old nw s := by
    intro n
    induction n with
    | zero =>
      intro s hs
      have h0 : s = [] := List.eq_nil_of_length_eq_zero (by omega)
      subst h0
      rw [jsSplitOn_nil hold, replaceOcc_nil, joinWith]
    | succ m ih =>
      intro s hs
      cases s with
      | nil => rw [jsSplitOn_nil hold, replaceOcc_nil, joinWith]
      | cons c r =>
        by_cases hpre : old.isPrefixOf (c :: r) = true
        · have hple : old.length ≤ r.length + 1 :=
            by simpa using (List.isPrefixOf_iff_prefix.mp hpre).length_le
          have hspos : 0 < old.length := List.length_pos.mpr hold
          rw [jsSplitOn_cons_pre hold hpre, replaceOcc_cons_pre hold hpre,
            joinWith_cons nw [] (jsSplitOn_ne_nil hold _),
            ih _ (by simp at hs ⊢; omega)]
          simp
        · rw [jsSplitOn_cons_npre hold hpre,
            joinWith_consHead nw c (jsSplitOn_ne_nil hold r),
            replaceOcc_cons_npre hold hpre, ih r (by simp at hs; omega)]
  exact fun s => key s.length s (le_refl _)

theorem replaceOcc_of_not_infix {old : List Char} (hold : old ≠ []) (nw : List Char) :
    ∀ s, ¬old <:+: s → replaceOcc old nw s = s := by
  intro s
  induction s with
  | nil => intro _; rw [replaceOcc_nil]
  | cons c r ih =>
    intro hinf
    have hnpre : ¬old.isPrefixOf (c :: r) = true := fun hp =>
      hinf (List.isPrefixOf_iff_prefix.mp hp).isInfix
    rw [replaceOcc_cons_npre hold hnpre,
      ih fun hi => hinf (hi.trans (List.suffix_cons c r).isInfix)]

/-! ### Order preservation of batched translation -/

theorem foldl_set_length {α : Type} (g : Nat → α) (order : List Nat) :
    ∀ st : List (Option α),
      (order.foldl (fun r j => r.set j (some (g j))) st).length = st.length := by
  induction order with
  | nil => intro st; rfl
  | cons i rest ih =>
    intro st
    rw [List.foldl_cons, ih, List.length_set]

theorem foldl_set_not_mem {α : Type} (g : Nat → α) (order : List Nat) :
    ∀ st : List (Option α), ∀ j, j ∉ order →
      (order.foldl (fun r j => r.set j (some (g j))) st)[j]? = st[j]? := by
  induction order with
  | nil => intro st j _; rfl
  | cons i rest ih =>
    intro st j hj
    rw [List.foldl_cons, ih _ _ (fun hm => hj (by simp [hm]))]
    exact List.getElem?_set_ne (fun he => hj (by simp [he]))

theorem foldl_set_mem {α : Type} (g : Nat → α) (order : List Nat) :
    ∀ st : List (Option α), ∀ j, j < st.length → j ∈ order →
      (order.foldl (fun r j => r.set j (some (g j))) st)[j]? = some (some (g j)) := by
  induction order with
  | nil => intro st j _ hj; simp at hj
  | cons i rest ih =>
    intro st j hlen hj
    rw [List.foldl_cons]
    by_cases hm : j ∈ rest
    · exact ih _ _ (by rw [List.length_set]; exact hlen) hm
    · have hij : i = j := by
        rcases List.mem_cons.mp hj with h1 | h1
        · exact h1.symm
        · exact absurd h1 hm
      subst hij
      rw [foldl_set_not_mem g rest _ _ hm]
      exact List.getElem?_set_self hlen

theorem promiseAllExec_eq (f : List Char → List Char) (batch : List (List Char))
    (order : List Nat) (horder : ∀ j < batch.length, j ∈ order) :
    promiseAllExec f batch order = batch.map f := by
  apply List.ext_getElem?
  intro n
  unfold promiseAllExec
  rw [List.getElem?_map, List.getElem?_map]
  by_cases hn : n < batch.length
  · rw [foldl_set_mem _ _ _ _ (by simpa using hn) (horder n hn)]
    rw [List.getElem?_eq_getElem hn]
    simp [List.getD_eq_getElem?_getD, List.getElem?_eq_getElem hn]
  · have hlen : (order.foldl (fun r j => r.set j (some (f (batch.getD j []))))
        (List.replicate batch.length none)).length = batch.length := by
      rw [foldl_set_length]; simp
    rw [List.getElem?_eq_none (show batch.length ≤ n by omega),
      List.getElem?_eq_none (by rw [hlen]; omega)]
    rfl

theorem runBatches_eq (f : List Char → List Char) (sched : Nat → List Nat)
    (hsched : ∀ b j, j < 3 → j ∈ sched b) :
    ∀ parts b, runBatches f parts sched b = parts.map f := by
  have key : ∀ n, ∀ parts : List (List Char), parts.length ≤ n → ∀ b,
      runBatches f parts sched b = parts.map f := by
    intro n
    induction n with
    | zero =>
      intro parts hlen b
      have h0 : parts = [] := List.eq_nil_of_length_eq_zero (by omega)
      subst h0
      rw [runBatches]
      simp
    | succ m ih =>
      intro parts hlen b
      rw [runBatches]
      by_cases hp : parts.isEmpty
      · rw [if_pos hp]
        rw [List.isEmpty_iff.mp hp]
        rfl
      · rw [if_neg hp]
        have h1 : promiseAllExec f (parts.take 3) (sched b) = (parts.take 3).map f := by
          refine promiseAllExec_eq f _ _ fun j hj => ?_
          refine hsched b j ?_
          have := List.length_take_le 3 parts
          omega
        have hne : parts ≠ [] := fun h0 => by simp [h0] at hp
        have h2 : runBatches f (parts.drop 3) sched (b + 1) = (parts.drop 3).map f := by
          refine ih _ ?_ (b + 1)
          rw [List.length_drop]
          have : 0 < parts.length := List.length_pos.mpr hne
          omega
        rw [h1, h2, ← List.map_append, List.take_append_drop]
  exact fun parts b => key parts.length parts (le_refl _) b

/-! ### Cache-key canonicalisation lemmas -/

theorem aLookup_perm : ∀ {p q : List (List Char × JVal)}, p.Perm q →
    (p.map Prod.fst).Nodup → ∀ k, aLookup p k = aLookup q k := by
  intro p q hperm
  induction hperm with
  | nil => intro _ k; rfl
  | cons x hperm ih =>
    intro hnd k
    obtain ⟨kx, vx⟩ := x
    rw [List.map_cons] at hnd
    simp only [aLookup]
    split
    · rfl
    · exact ih (List.nodup_cons.mp hnd).2 k
  | swap x y l =>
    intro hnd k
    obtain ⟨kx, vx⟩ := x
    obtain ⟨ky, vy⟩ := y
    have hxy : ky ≠ kx := by
      rw [List.map_cons, List.map_cons, List.nodup_cons] at hnd
      intro he
      apply hnd.1
      rw [he]
      exact List.mem_cons_self _ _
    simp only [aLookup]
    by_cases hy : ky = k
    · rw [if_pos hy, if_neg (fun hx : kx = k => hxy (hy.trans hx.symm)), if_pos hy]
    · rw [if_neg hy]
      by_cases hx : kx = k
      · rw [if_pos hx, if_pos hx]
      · rw [if_neg hx, if_neg hx, if_neg hy]
  | trans h1 h2 ih1 ih2 =>
    intro hnd k
    have hnd2 := ((h1.map Prod.fst).nodup_iff).mp hnd
    rw [ih1 hnd k, ih2 hnd2 k]

theorem serializePayload_perm {p q : List (List Char × JVal)} (hperm : p.Perm q)
    (hnd : (p.map Prod.fst).Nodup) : serializePayload p = serializePayload q := by
  unfold serializePayload
  have hkeys : List.insertionSort (· ≤ ·) (p.map Prod.fst) =
      List.insertionSort (· ≤ ·) (q.map Prod.fst) := by
    refine List.eq_of_perm_of_sorted ?_ (List.sorted_insertionSort _ _)
      (List.sorted_insertionSort _ _)
    exact (List.perm_insertionSort _ _).trans
      ((hperm.map Prod.fst).trans (List.perm_insertionSort _ _).symm)
  rw [hkeys]
  have hfun : (fun k => quoteJs k ++ ':' :: serializeVal (aLookup p k)) =
      fun k => quoteJs k ++ ':' :: serializeVal (aLookup q k) := by
    funext k
    rw [aLookup_perm hperm hnd k]
  rw [hfun]

theorem computeKey_perm {p q : List (List Char × JVal)} (hperm : p.Perm q)
    (hnd : (p.map Prod.fst).Nodup) : computeKey p = computeKey q := by
  unfold computeKey
  rw [serializePayload_perm hperm hnd]

/-! ### Single-field sensitivity of the canonical serialisation -/

theorem hexVal_hexDigitChar : ∀ m < 16, hexVal (hexDigitChar m) = m := by decide

theorem decEsc_escChar (c : Char) (r : List Char) :
    decEsc (escChar c ++ r) = some (c, r) := by
  unfold escChar
  by_cases h1 : c = '"'
  · subst h1; simp [decEsc]
  · rw [if_neg h1]
    by_cases h2 : c = '\\'
    · subst h2; simp [decEsc]
    · rw [if_neg h2]
      by_cases h3 : c.toNat = 8
      · rw [if_pos h3]
        have : c = Char.ofNat 8 := by rw [← h3, Char.ofNat_toNat]
        simp [decEsc, this]
      · rw [if_neg h3]
        by_cases h4 : c.toNat = 9
        · rw [if_pos h4]
          have : c = Char.ofNat 9 := by rw [← h4, Char.ofNat_toNat]
          simp [decEsc, this]
        · rw [if_neg h4]
          by_cases h5 : c.toNat = 10
          · rw [if_pos h5]
            have : c = Char.ofNat 10 := by rw [← h5, Char.ofNat_toNat]
            simp [decEsc, this]
          · rw [if_neg h5]
            by_cases h6 : c.toNat = 12
            · rw [if_pos h6]
              have : c = Char.ofNat 12 := by rw [← h6, Char.ofNat_toNat]
              simp [decEsc, this]
            · rw [if_neg h6]
              by_cases h7 : c.toNat = 13
              · rw [if_pos h7]
                have : c = Char.ofNat 13 := by rw [← h7, Char.ofNat_toNat]
                simp [decEsc, this]
              · rw [if_neg h7]
                by_cases h8 : c.toNat < 32
                · rw [if_pos h8]
                  simp only [List.cons_append, List.nil_append]
                  simp [decEsc]
                  rw [hexVal_hexDigitChar (c.toNat / 16) (by omega),
                    hexVal_hexDigitChar (c.toNat % 16) (by omega),
                    Nat.div_add_mod, Char.ofNat_toNat]
                · rw [if_neg h8]
                  simp only [List.cons_append, decEsc]
                  rw [if_neg h2]
                  simp

theorem escChar_ne_nil (c : Char) : escChar c ≠ [] := by
  intro h0
  have := decEsc_escChar c []
  rw [h0] at this
  simp [decEsc] at this

theorem escFlat_inj : ∀ s t : List Char,
    (s.map escChar).flatten = (t.map escChar).flatten → s = t := by
  intro s
  induction s with
  | nil =>
    intro t h
    cases t with
    | nil => rfl
    | cons d t' =>
      exfalso
      simp only [List.map_nil, List.flatten_nil, List.map_cons, List.flatten_cons] at h
      rcases List.append_eq_nil.mp h.symm with ⟨h1, -⟩
      exact escChar_ne_nil d h1
  | cons a s' ih =>
    intro t h
    cases t with
    | nil =>
      exfalso
      simp only [List.map_nil, List.flatten_nil, List.map_cons, List.flatten_cons] at h
      rcases List.append_eq_nil.mp h with ⟨h1, -⟩
      exact escChar_ne_nil a h1
    | cons d t' =>
      simp only [List.map_cons, List.flatten_cons] at h
      have hd1 := decEsc_escChar a ((s'.map escChar).flatten)
      have hd2 := decEsc_escChar d ((t'.map escChar).flatten)
      rw [h] at hd1
      rw [hd2] at hd1
      simp only [Option.some.injEq, Prod.mk.injEq] at hd1
      rw [hd1.1, ih t' hd1.2.symm]

theorem quoteJs_inj {s t : List Char} (h : quoteJs s = quoteJs t) : s = t := by
  unfold quoteJs at h
  injection h with _ h
  exact escFlat_inj s t (List.append_cancel_right h)

theorem serializeVal_ne {v w : JVal} (hvw : v ≠ w) :
    serializeVal v ≠ serializeVal w := by
  intro h
  cases v with
  | str s =>
    cases w with
    | str t => exact hvw (by rw [quoteJs_inj h])
    | jbool b =>
      cases b <;> simp [serializeVal, quoteJs] at h
  | jbool b =>
    cases w with
    | str t =>
      cases b <;> simp [serializeVal, quoteJs] at h
    | jbool b' =>
      cases b <;> cases b' <;> simp [serializeVal] at h ⊢ <;> exact hvw (by simp [*])

theorem aLookup_append_at {l1 l2 : List (List Char × JVal)} {k : List Char}
    (hk : k ∉ l1.map Prod.fst) (v : JVal) :
    aLookup (l1 ++ (k, v) :: l2) k = v := by
  induction l1 with
  | nil => simp [aLookup]
  | cons a t ih =>
    obtain ⟨ka, va⟩ := a
    have hka : ka ≠ k := by
      intro he
      exact hk (by rw [List.map_cons, he]; exact List.mem_cons_self _ _)
    simp only [List.cons_append, aLookup, if_neg hka]
    exact ih fun hm => hk (by rw [List.map_cons]; exact List.mem_cons_of_mem _ hm)

theorem aLookup_append_ne {l1 l2 : List (List Char × JVal)} {k kk : List Char}
    (hne : kk ≠ k) (v w : JVal) :
    aLookup (l1 ++ (k, v) :: l2) kk = aLookup (l1 ++ (k, w) :: l2) kk := by
  induction l1 with
  | nil =>
    simp only [List.nil_append, aLookup]
    rw [if_neg (fun he : k = kk => hne he.symm), if_neg (fun he : k = kk => hne he.symm)]
  | cons a t ih =>
    obtain ⟨ka, va⟩ := a
    simp only [List.cons_append, aLookup]
    split
    · rfl
    · exact ih

theorem joinWith_ne_at (sep : List Char) {e1 e2 : List Char} (hne : e1 ≠ e2) :
    ∀ (A B : List (List Char)),
      joinWith sep (A ++ e1 :: B) ≠ joinWith sep (A ++ e2 :: B) := by
  intro A
  induction A with
  | nil =>
    intro B h
    cases B with
    | nil => exact hne (by simpa [joinWith] using h)
    | cons b t =>
      rw [List.nil_append, List.nil_append, joinWith_cons sep e1 (by simp),
        joinWith_cons sep e2 (by simp)] at h
      exact hne (List.append_cancel_right (List.append_cancel_right h))
  | cons a A' ih =>
    intro B h
    rw [List.cons_append, List.cons_append, joinWith_cons sep a (by simp),
      joinWith_cons sep a (by simp)] at h
    exact ih B (List.append_cancel_left h)

theorem serialize_single_field_ne {l1 l2 : List (List Char × JVal)} {k : List Char}
    {v w : JVal} (hvw : v ≠ w)
    (hnd : ((l1 ++ (k, v) :: l2).map Prod.fst).Nodup) :
    serializePayload (l1 ++ (k, v) :: l2) ≠ serializePayload (l1 ++ (k, w) :: l2) := by
  have hkeys : (l1 ++ (k, w) :: l2).map Prod.fst = (l1 ++ (k, v) :: l2).map Prod.fst := by
    rw [List.map_append, List.map_append, List.map_cons, List.map_cons]
  have hkmem : k ∈ (l1 ++ (k, v) :: l2).map Prod.fst := by
    rw [List.map_append, List.map_cons]
    exact List.mem_append_right _ (List.mem_cons_self _ _)
  have hknotl1 : k ∉ l1.map Prod.fst := by
    rw [List.map_append, List.map_cons, List.nodup_append] at hnd
    exact fun hm => hnd.2.2 hm (List.mem_cons_self _ _)
  -- the sorted key list contains k exactly once
  have hsortperm := List.perm_insertionSort (· ≤ ·) ((l1 ++ (k, v) :: l2).map Prod.fst)
  have hsortnd : (List.insertionSort (· ≤ ·) ((l1 ++ (k, v) :: l2).map Prod.fst)).Nodup :=
    (hsortperm.nodup_iff).mpr hnd
  have hksort : k ∈ List.insertionSort (· ≤ ·) ((l1 ++ (k, v) :: l2).map Prod.fst) :=
    (hsortperm.mem_iff).mpr hkmem
  obtain ⟨K1, K2, hsplit⟩ := List.append_of_mem hksort
  have hnd12 := hsplit ▸ hsortnd
  rw [List.nodup_append] at hnd12
  have hkK1 : k ∉ K1 := fun hm => hnd12.2.2 hm (List.mem_cons_self _ _)
  have hkK2 : k ∉ K2 := (List.nodup_cons.mp hnd12.2.1).1
  intro hser
  unfold serializePayload at hser
  have hinner := List.append_cancel_right (List.cons_injective.eq_iff.mp hser)
  rw [hkeys, hsplit, List.map_append, List.map_append, List.map_cons, List.map_cons]
    at hinner
  have hK1 : (K1.map fun kk => quoteJs kk ++ ':' :: serializeVal
      (aLookup (l1 ++ (k, v) :: l2) kk)) =
      K1.map fun kk => quoteJs kk ++ ':' :: serializeVal (aLookup (l1 ++ (k, w) :: l2) kk) :=
    List.map_congr_left fun kk hkk => by
      rw [aLookup_append_ne (fun (he : kk = k) => hkK1 (he ▸ hkk)) v w]
  have hK2 : (K2.map fun kk => quoteJs kk ++ ':' :: serializeVal
      (aLookup (l1 ++ (k, v) :: l2) kk)) =
      K2.map fun kk => quoteJs kk ++ ':' :: serializeVal (aLookup (l1 ++ (k, w) :: l2) kk) :=
    List.map_congr_left fun kk hkk => by
      rw [aLookup_append_ne (fun (he : kk = k) => hkK2 (he ▸ hkk)) v w]
  rw [← hK1, ← hK2] at hinner
  rw [aLookup_append_at hknotl1 v, aLookup_append_at hknotl1 w] at hinner
  have hent : quoteJs k ++ ':' :: serializeVal v ≠ quoteJs k ++ ':' :: serializeVal w := by
    intro he
    have := List.append_cancel_left he
    exact serializeVal_ne hvw (by injection this)
  exact joinWith_ne_at [','] hent _ _ hinner

/-! ### Termination behaviour of translateWithSplit -/

theorem chunksOf_mem_le {k : Nat} :
    ∀ (l : List Char), ∀ p ∈ chunksOf k l, p.length ≤ k := by
  have key : ∀ (n : Nat) (l : List Char), l.length ≤ n →
      ∀ p ∈ chunksOf k l, p.length ≤ k := by
    intro n
    induction n with
    | zero =>
      intro l hl p hp
      have h0 : l = [] := List.eq_nil_of_length_eq_zero (by omega)
      subst h0
      rw [chunksOf.eq_def] at hp
      split at hp
      · simp at hp
      · simp at hp
    | succ m ih =>
      intro l hl p hp
      rw [chunksOf.eq_def] at hp
      split at hp
      · simp at hp
      · rename_i hk
        cases l with
        | nil => simp at hp
        | cons c r =>
          rcases List.mem_cons.mp hp with h1 | h1
          · subst h1
            exact List.length_take_le k _
          · refine ih ((c :: r).drop k) ?_ p h1
            simp only [List.length_drop, List.length_cons] at hl ⊢
            omega
  exact fun l => key l.length l (le_refl _)

theorem twsAll_isSome (oracle : List Char → List Char) (maxChars fuel : Nat) :
    ∀ parts : List (List Char),
      (∀ p ∈ parts, (twsF oracle maxChars fuel p).isSome) →
      (twsAll oracle maxChars fuel parts).isSome := by
  intro parts
  induction parts with
  | nil => intro _; rw [twsAll]; rfl
  | cons t ts ih =>
    intro hall
    obtain ⟨o, ho⟩ := Option.isSome_iff_exists.mp (hall t (by simp))
    obtain ⟨os, hos⟩ := Option.isSome_iff_exists.mp (ih fun p hp => hall p (by simp [hp]))
    rw [twsAll, ho, hos]
    rfl

theorem twsF_total (oracle : List Char → List Char) (maxChars : Nat)
    (hmax : 1 ≤ maxChars)
    (H : ∀ s : List Char, s.length ≤ 1 → jsTrim (oracle s) ≠ truncSentinel) :
    ∀ (fuel : Nat) (text : List Char), text.length < fuel →
      (twsF oracle maxChars fuel text).isSome := by
  intro fuel
  induction fuel with
  | zero => intro text h; omega
  | succ f ih =>
    intro text hlen
    rw [twsF]
    by_cases hsmall : text.length ≤ maxChars
    · rw [if_pos hsmall]
      by_cases htr : jsTrim (oracle text) = truncSentinel
      · rw [if_pos htr]
        have h2 : 2 ≤ text.length := by
          by_contra hcon
          exact H text (by omega) htr
        obtain ⟨a, ha⟩ := Option.isSome_iff_exists.mp
          (ih (text.take (text.length / 2))
            (by simp only [List.length_take]; omega))
        obtain ⟨b, hb⟩ := Option.isSome_iff_exists.mp
          (ih (text.drop (text.length / 2))
            (by simp only [List.length_drop]; omega))
        rw [ha, hb]
        rfl
      · rw [if_neg htr]
        rfl
    · rw [if_neg hsmall]
      have hall : ∀ p ∈ chunksOf maxChars text, (twsF oracle maxChars f p).isSome := by
        intro p hp
        exact ih p (by have := chunksOf_mem_le text p hp; omega)
      obtain ⟨os, hos⟩ := Option.isSome_iff_exists.mp
        (twsAll_isSome oracle maxChars f _ hall)
      rw [hos]
      rfl

theorem twsF_allTrunc_none :
    ∀ fuel, twsF allTruncOracle 6000 fuel [] = none ∧
      twsF allTruncOracle 6000 fuel ['a'] = none := by
  intro fuel
  induction fuel with
  | zero => exact ⟨by rw [twsF], by rw [twsF]⟩
  | succ f ih =>
    constructor
    · rw [twsF]
      rw [if_pos (by simp)]
      rw [if_pos (by decide)]
      simp only [List.length_nil, List.take_nil, List.drop_nil]
      rw [ih.1]
    · rw [twsF]
      rw [if_pos (by simp)]
      rw [if_pos (by decide)]
      simp only [List.length_cons, List.length_nil]
      rw [show (0 + 1) / 2 = 0 from rfl]
      rw [List.take_zero, List.drop_zero]
      rw [ih.1]

/-! ### Concrete evaluation helpers -/

theorem byChars_leading_empty :
    splitHtmlByCharsCore 1000 (List.replicate 1001 'a') =
      [[], List.replicate 1001 'a'] := by
  unfold splitHtmlByCharsCore
  rw [jsSplitKeep_replicate (by decide) 1001]
  simp only [List.foldl_cons, List.foldl_nil]
  rw [@genStep_pos (chCond 1000) ([], []) (List.replicate 1001 'a')
    (by rw [chCond_iff]; rw [List.length_nil, List.length_replicate]; omega)]
  unfold chunkFlush
  dsimp only
  rw [if_neg (by
    intro h
    have hlen := congrArg List.length h
    rw [List.length_replicate] at hlen
    simp at hlen)]
  rfl

/-! ## Claims -/

/-- C1: for every document and every per-chunk completion order, the TRANSLATE
stage — sequential batches of 3, concurrent within a batch, awaiting the whole
batch — produces the translations in original chunk order: the i-th output is
the translation of the i-th chunk, for any batch completion schedule that
eventually completes every call. -/
theorem claim_c1_order_preservation (f : List Char → List Char)
    (sched : Nat → List Nat) (parts : List (List Char))
    (hsched : ∀ b j, j < 3 → j ∈ sched b) :
    runBatches f parts sched 0 = parts.map f ∧
      ∀ i : Nat, (runBatches f parts sched 0)[i]? = (parts[i]?).map f := by
  have h := runBatches_eq f sched hsched parts 0
  exact ⟨h, fun i => by rw [h, List.getElem?_map]⟩

theorem claim_c1_witness :
    runBatches (fun s => 'T' :: s) [("a").toList, ("b").toList, ("c").toList,
        ("d").toList] (fun _ => [2, 0, 1]) 0 =
      [("a").toList, ("b").toList, ("c").toList, ("d").toList].map
        (fun s => 'T' :: s) :=
  (claim_c1_order_preservation _ _ _ (fun b j hj => by
    simp only [List.mem_cons, List.not_mem_nil, or_false]
    omega)).1

/-- C2: for every HTML string, size limit and margin, concatenating the chunks
of `splitHtmlSmart` (and of `splitHtmlByChars`) reproduces the input exactly. -/
theorem claim_c2_roundtrip (html : List Char) (limit mnum mden : Nat) :
    (splitHtmlSmart html limit mnum mden).flatten = html ∧
      (splitHtmlByChars html limit mnum mden).flatten = html :=
  ⟨splitHtmlSmart_flatten html limit mnum mden,
   splitHtmlByChars_flatten html limit mnum mden⟩

/-- C3: `computeKey` is a pure function of the payload's key-value pairs:
permuting the field order of the payload (keys being distinct, as in a
JavaScript object) does not change the key. -/
theorem claim_c3_key_deterministic (p q : List (List Char × JVal))
    (hperm : p.Perm q) (hnd : (p.map Prod.fst).Nodup) :
    computeKey p = computeKey q :=
  computeKey_perm hperm hnd

theorem claim_c3_witness :
    computeKey [(("a").toList, JVal.jbool true), (("b").toList, JVal.str (("x").toList))] =
      computeKey [(("b").toList, JVal.str (("x").toList)), (("a").toList, JVal.jbool true)] :=
  claim_c3_key_deterministic _ _ (List.Perm.swap _ _ _) (by decide)

/-- C4 (counterexample): `translateChunk` checks the sentinel on the raw
response but returns the fence-stripped response, so the response
`"TRUNCATED\n```"` is returned successfully although its trimmed value is the
sentinel. -/
theorem claim_c4_counterexample :
    translateChunkRes (("TRUNCATED\n```").toList) = some truncSentinel ∧
      jsTrim truncSentinel = truncSentinel := by decide

/-- C4 (amended): `translateChunk` raises `ChunkTooLargeError` exactly when
the trimmed raw model response equals the sentinel; the returned value,
however, is the fence-stripped response, which can itself trim to the
sentinel (see the counterexample). -/
theorem claim_c4_amended (response : List Char) :
    translateChunkRes response = none ↔ jsTrim response = truncSentinel := by
  unfold translateChunkRes
  split
  · rename_i h
    exact ⟨fun _ => h, fun _ => rfl⟩
  · rename_i h
    exact ⟨fun hc => absurd hc (Option.some_ne_none _), fun hc => absurd hc h⟩

/-- C5 (code bug): on a response wrapped in a fence block, `stripFences`
returns the empty string instead of the interior: the JavaScript
`t.split("\n", 1)[1] ?? ""` always evaluates to `""` because `split` with
limit 1 keeps only the first segment. -/
theorem claim_c5_strip_fences_bug :
    stripFences (("```html\n<p>Hi</p>\n```").toList) = [] ∧
      (("<p>Hi</p>").toList : List Char) ≠ [] := by decide

/-- C6 (counterexample): `splitHtmlByChars` emits a zero-length chunk when
the first line exceeds the safe budget: the loop pushes the still-empty
buffer before starting it with the long line. -/
theorem claim_c6_counterexample :
    [] ∈ splitHtmlByChars (List.replicate 1001 'a') 10 1 2 := by
  unfold splitHtmlByChars
  rw [show max 1000 (10 * 1 / 2) = 1000 from rfl, byChars_leading_empty]
  exact List.mem_cons_self _ _

/-- C6 (amended): the boundary-aware packer never flushes an empty buffer, so
every `packParts` chunk is non-empty; `splitHtmlByChars`, however, can emit
one empty chunk, and only as its first chunk (every later chunk is
non-empty). -/
theorem claim_c6_amended (html : List Char) (limit mnum mden i safe : Nat)
    (parts : List (List Char)) (c : List Char) :
    (1 ≤ i → (splitHtmlByChars html limit mnum mden)[i]? ≠ some []) ∧
      (c ∈ packParts safe parts → c ≠ []) := by
  constructor
  · intro hi hcon
    have htail := splitHtmlByCharsCore_tailNE (max 1000 (limit * mnum / mden))
      (by omega) html
    refine htail [] ?_ rfl
    have hidx : 1 + (i - 1) = i := by omega
    have : ((splitHtmlByCharsCore (max 1000 (limit * mnum / mden)) html).drop 1)[i - 1]?
        = some [] := by
      rw [List.getElem?_drop, hidx]
      exact hcon
    exact List.getElem?_mem this
  · exact fun hc => packParts_allNE safe parts c hc

theorem claim_c6_witness :
    (splitHtmlByChars (("a").toList) 10 1 2)[1]? ≠ some [] ∧ (['x'] : List Char) ≠ [] :=
  ⟨(claim_c6_amended (("a").toList) 10 1 2 1 5 [['x']] ['x']).1 (by omega),
   (claim_c6_amended (("a").toList) 10 1 2 1 5 [['x']] ['x']).2 (by decide)⟩

/-- C7: every chunk emitted by `splitHtmlSmart` has length at most
`max(2000, floor(limit * margin))`, except single-element chunks (a single
boundary-delimited part, `findParts c = [c]`) and single-line chunks (no
newline) — the unavoidable overflows, which are exactly the chunks the
character fallback re-splits or cannot split further. -/
theorem claim_c7_chunk_bound (html : List Char) (limit mnum mden : Nat)
    (c : List Char) (hc : c ∈ splitHtmlSmart html limit mnum mden) :
    c.length ≤ max 2000 (limit * mnum / mden) ∨ findParts c = [c] ∨ '\n' ∉ c :=
  splitHtmlSmart_bound html limit mnum mden c hc

set_option maxRecDepth 4000 in
theorem claim_c7_witness :
    (("<p>x</p>").toList.length ≤ max 2000 (32000 * 1 / 2) ∨
        findParts (("<p>x</p>").toList) = [("<p>x</p>").toList] ∨
        '\n' ∉ (("<p>x</p>").toList)) :=
  claim_c7_chunk_bound (("<p>x</p>").toList) 32000 1 2 (("<p>x</p>").toList) (by decide)

/-- C8 (counterexample): `translateWithSplit` does not terminate on every
input: it has no minimum-size cutoff, so when the model keeps answering the
sentinel, the midpoint split of a 1-character text recurses on the same
1-character text forever (no amount of fuel makes it finish). -/
theorem claim_c8_counterexample :
    ¬∃ fuel, (twsF allTruncOracle 6000 fuel (("a").toList)).isSome := by
  rintro ⟨fuel, hf⟩
  rw [show ("a").toList = ['a'] from rfl, (twsF_allTrunc_none fuel).2] at hf
  simp at hf

/-- C8 (amended): `translateWithSplit` terminates on every input provided the
model never signals truncation on pieces of length at most 1 (the recursion
strictly shrinks longer pieces, so fuel `text.length + 1` suffices); with a
perpetually-truncating model it diverges, since the code has no minimum-size
cutoff. -/
theorem claim_c8_amended (oracle : List Char → List Char) (maxChars : Nat)
    (hmax : 1 ≤ maxChars)
    (H : ∀ s : List Char, s.length ≤ 1 → jsTrim (oracle s) ≠ truncSentinel)
    (text : List Char) :
    (twsF oracle maxChars (text.length + 1) text).isSome :=
  twsF_total oracle maxChars hmax H _ text (by omega)

theorem claim_c8_witness :
    (twsF okOracle 6000 ((("hello").toList).length + 1) (("hello").toList)).isSome :=
  claim_c8_amended okOracle 6000 (by omega)
    (fun s h => by show jsTrim (("ok").toList) ≠ truncSentinel; decide) (("hello").toList)

set_option maxRecDepth 10000 in
/-- C9 (counterexample): the 32-bit key of `storage.ts` collides on payloads
that agree on every field except the target language: these two requests
differ only in `tgtLang` yet receive the same key. -/
theorem claim_c9_counterexample :
    computeKey [(("srcLang").toList, JVal.str (("ru").toList)),
        (("tgtLang").toList, JVal.str (("adpan").toList))] =
      computeKey [(("srcLang").toList, JVal.str (("ru").toList)),
        (("tgtLang").toList, JVal.str (("aizue").toList))] ∧
      (("adpan").toList : List Char) ≠ ("aizue").toList := by
  constructor
  · decide
  · decide

/-- C9 (amended): changing the value of a single field always changes the
canonical JSON serialisation that the key is hashed from; the 32-bit key
itself, however, can collide on such payloads (see the counterexample), so
key inequality holds only for the serialisations, not for the keys. -/
theorem claim_c9_amended {l1 l2 : List (List Char × JVal)} {k : List Char}
    {v w : JVal} (hvw : v ≠ w)
    (hnd : ((l1 ++ (k, v) :: l2).map Prod.fst).Nodup) :
    serializePayload (l1 ++ (k, v) :: l2) ≠ serializePayload (l1 ++ (k, w) :: l2) :=
  serialize_single_field_ne hvw hnd

theorem claim_c9_witness :
    serializePayload [(("a").toList, JVal.str (("x").toList))] ≠
      serializePayload [(("a").toList, JVal.str (("y").toList))] :=
  @claim_c9_amended [] [] (("a").toList) (JVal.str (("x").toList))
    (JVal.str (("y").toList)) (by decide) (by decide)

/-- C10: `deterministicDomainSwap` returns the input unchanged when either
domain is empty or they are equal; otherwise it replaces every leftmost
non-overlapping occurrence of the old domain by the new one (in particular,
when the old domain does not occur, the input is unchanged). -/
theorem claim_c10_domain_swap (html oldDomain newDomain : List Char) :
    ((oldDomain = [] ∨ newDomain = [] ∨ oldDomain = newDomain) →
        deterministicDomainSwap html oldDomain newDomain = html) ∧
      (oldDomain ≠ [] → newDomain ≠ [] → oldDomain ≠ newDomain →
        deterministicDomainSwap html oldDomain newDomain =
            replaceOcc oldDomain newDomain html ∧
          (¬oldDomain <:+: html →
            deterministicDomainSwap html oldDomain newDomain = html)) := by
  constructor
  · intro h
    unfold deterministicDomainSwap
    rw [if_pos h]
  · intro h1 h2 h3
    unfold deterministicDomainSwap
    rw [if_neg (by simp [h1, h2, h3])]
    refine ⟨swap_join_eq_replace h1 newDomain html, fun hinf => ?_⟩
    rw [swap_join_eq_replace h1 newDomain html,
      replaceOcc_of_not_infix h1 newDomain html hinf]

theorem claim_c10_witness :
    deterministicDomainSwap (("xay").toList) (("a").toList) (("bb").toList) =
        replaceOcc (("a").toList) (("bb").toList) (("xay").toList) ∧
      deterministicDomainSwap (("xay").toList) (("a").toList) (("a").toList) =
        ("xay").toList :=
  ⟨((claim_c10_domain_swap (("xay").toList) (("a").toList) (("bb").toList)).2
      (by decide) (by decide) (by decide)).1,
   (claim_c10_domain_swap (("xay").toList) (("a").toList) (("a").toList)).1
      (Or.inr (Or.inr rfl))⟩

